import Mathlib

/-!
# Verification of the quickmark markdown engine against its specification

Shallow embedding of the footnote subsystem (`src/plugins/footnote/`), the
fence block rule (`src/plugins/cmark/block/fence.rs`), the plugin
registration dispatch (`src/lib.rs`, `MDParser::_enable_str`) and the
preprocessing hook (`src/mdparser/preprocess.rs`).

Rust `HashMap<K, V>` values are embedded as association lists
(`List (K × V)`): `insert` replaces the binding of an existing key in
place, `get` returns the first binding.  Stateful `&mut self` methods are
embedded as functions returning the result together with the updated
value.
-/

namespace Quickmark

/-- Lookup in an association list: first binding wins (embeds `HashMap::get`). -/
def assocFind {α β : Type} [DecidableEq α] : List (α × β) → α → Option β
  | [], _ => none
  | (k, v) :: rest, key => if k = key then some v else assocFind rest key

/-- Replace the value bound to an existing key (embeds `HashMap::get_mut` +
in-place mutation).  Only the first binding is replaced. -/
def assocSet {α β : Type} [DecidableEq α] : List (α × β) → α → β → List (α × β)
  | [], _, _ => []
  | (k, v) :: rest, key, val =>
      if k = key then (k, val) :: rest else (k, v) :: assocSet rest key val

/-- Insert-or-replace (embeds `HashMap::insert`): replaces the binding if the
key is present, otherwise adds a new binding. -/
def assocInsert {α β : Type} [DecidableEq α] (l : List (α × β)) (key : α) (val : β) :
    List (α × β) :=
  if (assocFind l key).isSome then assocSet l key val else (key, val) :: l

/-! ## FootnoteMap (`src/plugins/footnote/mod.rs`, lines 74-129) -/

/-- The root-scoped footnote state: monotonic id counters, label-to-definition
map, and definition-to-references map (struct `FootnoteMap`). -/
structure FootnoteMap where
  def_counter : Nat
  ref_counter : Nat
  label_to_def : List (String × Nat)
  def_to_refs : List (Nat × List Nat)
deriving DecidableEq, Repr, Inhabited

/-- `FootnoteMap::default()` (derived `Default`). -/
def FootnoteMap.default : FootnoteMap :=
  { def_counter := 0, ref_counter := 0, label_to_def := [], def_to_refs := [] }

/-- The footnote label `"a"` used by the concrete scenarios. -/
def labelA : String := "a"

namespace FootnoteMap

/-- `FootnoteMap::add_def`: create an ID for the definition, or return `None`
if a definition already exists for the label.  Returns the result together
with the updated map (`&mut self` embedding). -/
def add_def (m : FootnoteMap) (label : String) : Option Nat × FootnoteMap :=
  if (assocFind m.label_to_def label).isSome then (none, m)
  else
    let c := m.def_counter + 1
    (some c,
     { m with def_counter := c, label_to_def := (label, c) :: m.label_to_def })

/-- `FootnoteMap::add_ref`: create an ID for the reference and return
`(def_id, ref_id)`, or return `None` if no definition exists for the label. -/
def add_ref (m : FootnoteMap) (label : String) : Option (Nat × Nat) × FootnoteMap :=
  match assocFind m.label_to_def label with
  | some def_id =>
      let r := m.ref_counter + 1
      let dtr :=
        match assocFind m.def_to_refs def_id with
        | some refs => assocSet m.def_to_refs def_id (refs ++ [r])
        | none => (def_id, [r]) :: m.def_to_refs
      (some (def_id, r), { m with ref_counter := r, def_to_refs := dtr })
  | none => (none, m)

/-- `FootnoteMap::add_inline_def`: add an inline definition and return
`(def_id, ref_id)`. -/
def add_inline_def (m : FootnoteMap) : (Nat × Nat) × FootnoteMap :=
  let d := m.def_counter + 1
  let r := m.ref_counter + 1
  ((d, r),
   { m with def_counter := d, ref_counter := r,
            def_to_refs := assocInsert m.def_to_refs d [r] })

/-- `FootnoteMap::referenced_by`: the IDs of all references to the given
definition ID. -/
def referenced_by (m : FootnoteMap) (def_id : Nat) : List Nat :=
  match assocFind m.def_to_refs def_id with
  | some ids => ids
  | none => []

end FootnoteMap

/-! ## Operation sequences over a FootnoteMap

Used to state the cross-operation invariants (monotonic counters, freshness
of allocated ids, stability of label resolution). -/

/-- One mutating `FootnoteMap` operation. -/
inductive FnOp where
  | adddef (label : String)
  | addref (label : String)
  | addinline
deriving DecidableEq, Repr

/-- Apply one operation, discarding its return value. -/
def applyOp (m : FootnoteMap) : FnOp → FootnoteMap
  | .adddef l => (m.add_def l).2
  | .addref l => (m.add_ref l).2
  | .addinline => m.add_inline_def.2

/-- Apply a sequence of operations in order. -/
def applyOps (m : FootnoteMap) : List FnOp → FootnoteMap
  | [] => m
  | op :: ops => applyOps (applyOp m op) ops

/-- The definition ids freshly allocated by a run, in allocation order
(`add_def` on success and `add_inline_def` allocate definition ids). -/
def allocatedDefIds (m : FootnoteMap) : List FnOp → List Nat
  | [] => []
  | op :: ops =>
      (match op with
       | .adddef l => match (m.add_def l).1 with
            | some d => [d]
            | none => []
       | .addref _ => []
       | .addinline => [m.add_inline_def.1.1]) ++
      allocatedDefIds (applyOp m op) ops

/-- The reference ids freshly allocated by a run, in allocation order
(`add_ref` on success and `add_inline_def` allocate reference ids). -/
def allocatedRefIds (m : FootnoteMap) : List FnOp → List Nat
  | [] => []
  | op :: ops =>
      (match op with
       | .adddef _ => []
       | .addref l => match (m.add_ref l).1 with
            | some p => [p.2]
            | none => []
       | .addinline => [m.add_inline_def.1.2]) ++
      allocatedRefIds (applyOp m op) ops

/-! ## AST nodes

Modelled from the spec: the `Node` wrapper (§4.1) carries a polymorphic
payload and an owned ordered list of children.  Only the payload variants
that the footnote subsystem inspects are distinguished; every other payload
is `other`.  Node attributes and source spans play no role in the claims
about the collect pass and are omitted from the tree (the reference
renderer receives attributes separately). -/

/-- Payload variants (`NodeValue` implementations) relevant to the footnote
subsystem. -/
inductive NV where
  /-- `footnote::definitions::FootnoteDefinition` (fields as used by
  `collect.rs` and `inline.rs`: `label`, `def_id`, `inline`). -/
  | footnoteDefinition (label : Option String) (def_id : Option Nat) (inline : Bool)
  /-- `footnote::references::FootnoteReference`. -/
  | footnoteReference (label : Option String) (ref_id : Nat) (def_id : Nat)
  /-- `footnote::inline::InlineFootnote`. -/
  | inlineFootnote
  /-- `footnote::collect::FootnotesContainerNode`. -/
  | footnotesContainer
  /-- `footnote::collect::PlaceholderNode`. -/
  | placeholder
  /-- `cmark::block::paragraph::Paragraph`. -/
  | paragraph
  /-- `skip_text::Text`. -/
  | text (s : String)
  /-- any other payload, tagged to keep distinct values distinguishable. -/
  | other (tag : Nat)
deriving DecidableEq, Repr

/-- A syntax-tree node: payload plus owned children. -/
inductive Node where
  | mk (value : NV) (children : List Node)

/-- The payload of a node. -/
def Node.value : Node → NV
  | .mk v _ => v

/-- The children of a node. -/
def Node.children : Node → List Node
  | .mk _ cs => cs

/-- `node.is::<FootnoteDefinition>()`. -/
def Node.isDef : Node → Bool
  | .mk (.footnoteDefinition _ _ _) _ => true
  | _ => false

/-- `node.is::<PlaceholderNode>()`. -/
def Node.isPlaceholder : Node → Bool
  | .mk .placeholder _ => true
  | _ => false

/-- `node.is::<FootnotesContainerNode>()`. -/
def Node.isContainer : Node → Bool
  | .mk .footnotesContainer _ => true
  | _ => false

/-- Root-scoped extension state (modelled from the spec, §3/§4.2: a
type-keyed heterogeneous store; `mdparser/extset.rs` is not in the sources).
The `FootnoteMap` slot is the entry the footnote plugin uses; `others`
stands for the values of all unrelated `RootExt` types.  `std::mem::take`
replaces the store by `default` (all slots empty). -/
structure RootExtSet where
  footnote : Option FootnoteMap
  others : List String
deriving DecidableEq, Repr

/-- `RootExtSet::default()`: the empty store. -/
def RootExtSet.default : RootExtSet := { footnote := none, others := [] }

/-- `root_ext.get_or_insert_default::<FootnoteMap>()`: returns the stored map
(inserting a default one when absent) together with the updated store. -/
def RootExtSet.getOrInsertFootnote (e : RootExtSet) : FootnoteMap × RootExtSet :=
  match e.footnote with
  | some m => (m, e)
  | none => (FootnoteMap.default, { e with footnote := some FootnoteMap.default })

/-- Store the (possibly mutated) footnote map back (`get_or_insert_default`
hands out a mutable reference; writes through it update the stored value). -/
def RootExtSet.setFootnote (e : RootExtSet) (m : FootnoteMap) : RootExtSet :=
  { e with footnote := some m }

/-! ## The footnote collect pass (`src/plugins/footnote/collect.rs`)

`FootnoteCollectRule::run` walks the tree with `walk_mut`.  Modelled from
the spec (§4.1, `node.rs` is not in the sources): `walk_mut` is a pre-order
traversal — the visitor runs on a node first and the walk then descends
into that node's (possibly modified) children.

The visitor body (collect.rs lines 90-126) scans the children of the
visited node: every `FootnoteDefinition` child is swapped out for a
`PlaceholderNode`; an extracted definition is pushed onto the accumulator
when its `def_id` is present and referenced (inline definitions get their
children wrapped in a synthesized `Paragraph` first), and is dropped
otherwise; finally all placeholder children are pruned with `retain`.
Because pruning happens inside the visitor, the subsequent descent only
visits the surviving (non-definition, non-placeholder) children, and never
descends into an extracted definition's subtree.

The embedding fuses the walk with this visitor: `extractList` is the
accumulation performed by one visitor call on a child list, `walkKept` is
the descent into the surviving children.  The accumulator receives the
definitions extracted at a node before those extracted below it, exactly
as in the fused Rust traversal. -/

/-- Should this child be extracted into the accumulator?  True exactly for
`FootnoteDefinition` children with a present, referenced `def_id`
(collect.rs lines 99-111). -/
def extractKeep (map : FootnoteMap) : Node → Bool
  | .mk (.footnoteDefinition _ (some d) _) _ => !(map.referenced_by d).isEmpty
  | _ => false

/-- Wrap an inline definition's children in a synthesized `Paragraph`
(collect.rs lines 112-118); block definitions are kept as-is. -/
def wrapIfInline : Node → Node
  | .mk (.footnoteDefinition lbl did true) cs =>
      .mk (.footnoteDefinition lbl did true) [.mk .paragraph cs]
  | n => n

/-- A child survives the visitor when it is neither a footnote definition
(those are swapped for placeholders) nor a placeholder (those are pruned by
`retain`). -/
def keepChild (c : Node) : Bool := !c.isDef && !c.isPlaceholder

/-- The definitions one visitor call extracts from a child list, already
wrapped, in child order. -/
def extractList (map : FootnoteMap) (cs : List Node) : List Node :=
  (cs.filter (extractKeep map)).map wrapIfInline

mutual

/-- The walk applied to one (already surviving) node: returns the rewritten
node and the definitions collected from its subtree. -/
def collectNode (map : FootnoteMap) : Node → Node × List Node
  | .mk v cs =>
      let here := extractList map cs
      let (cs', below) := walkKept map cs
      (.mk v cs', here ++ below)

/-- The descent into the surviving children of a visited node. -/
def walkKept (map : FootnoteMap) : List Node → List Node × List Node
  | [] => ([], [])
  | c :: cs =>
      let (cs', ds) := walkKept map cs
      if keepChild c then
        let (c', d0) := collectNode map c
        (c' :: cs', d0 ++ ds)
      else (cs', ds)

end

/-- `FootnoteCollectRule::run` (collect.rs lines 78-138), acting on the root
node's extension store and child list.  `std::mem::take(&mut data.ext)`
empties the root store; it is restored only on the path that appends the
container — the two early `return`s leave the store empty. -/
def collectRun (ext : RootExtSet) (children : List Node) : RootExtSet × List Node :=
  let root_ext := ext
  -- after `mem::take` the root's store is `RootExtSet.default`
  match root_ext.footnote with
  | none => (RootExtSet.default, children)
  | some map =>
      -- `walk_mut` visits the root itself first, then descends
      let here := extractList map children
      let (children', below) := walkKept map children
      let defs := here ++ below
      if defs.isEmpty then (RootExtSet.default, children')
      else (root_ext, children' ++ [.mk .footnotesContainer defs])

/-! ### Independent specification functions for the collect pass -/

mutual

/-- The footnote-definition children encountered by the pre-order walk, in
encounter order: the definitions among a node's children first, then those
encountered below each surviving child. -/
def encDefs : Node → List Node
  | .mk _ cs => cs.filter Node.isDef ++ encDefsList cs

/-- Encounter-ordered definitions below each surviving child of a list. -/
def encDefsList : List Node → List Node
  | [] => []
  | c :: cs => (if keepChild c then encDefs c else []) ++ encDefsList cs

end

mutual

/-- All footnote-definition nodes of a tree, in plain pre-order. -/
def pDefs : Node → List Node
  | n@(.mk _ cs) => (if n.isDef then [n] else []) ++ pDefsList cs

/-- All footnote-definition nodes of a forest, in plain pre-order. -/
def pDefsList : List Node → List Node
  | [] => []
  | c :: cs => pDefs c ++ pDefsList cs

end

mutual

/-- Does every node of the tree have a payload satisfying `p`? -/
def allVals (p : NV → Bool) : Node → Bool
  | .mk v cs => p v && allValsList p cs

/-- Does every node of the forest have a payload satisfying `p`? -/
def allValsList (p : NV → Bool) : List Node → Bool
  | [] => true
  | c :: cs => allVals p c && allValsList p cs

end

/-- Is this payload a `FootnoteDefinition`? -/
def NV.isDefV : NV → Bool
  | .footnoteDefinition _ _ _ => true
  | _ => false

mutual

/-- No `FootnoteDefinition` is nested inside another `FootnoteDefinition`:
each definition node's subtree is definition-free below it. -/
def noNestedDef : Node → Bool
  | .mk v cs =>
      (if v.isDefV then allValsList (fun w => !w.isDefV) cs else true) &&
      noNestedDefList cs

/-- `noNestedDef` over a forest. -/
def noNestedDefList : List Node → Bool
  | [] => true
  | c :: cs => noNestedDef c && noNestedDefList cs

end

/-! ## Inline parse state and the footnote inline rules

Modelled from the spec (§3/§4.4, `mdparser/inline.rs` is not in the
sources): the transient inline state carries the source, the `pos`/`pos_max`
scan window, the node being built, and the root extension store.  The
source is embedded as a character list and positions count characters. -/

/-- `InlineState` as consumed by the footnote inline rules. -/
structure InlineStateM where
  src : List Char
  pos : Nat
  posMax : Nat
  node : Node
  rootExt : RootExtSet

/-- `state.src[state.pos..state.pos_max].chars()` as a list. -/
def InlineStateM.slice (st : InlineStateM) : List Char :=
  (st.src.take st.posMax).drop st.pos

/-- `state.src[p..state.pos_max].chars().next()`: the character at position
`p` of the window, when the window is nonempty there. -/
def charAt (src : List Char) (posMax p : Nat) : Option Char :=
  ((src.take posMax).drop p).head?

/-! ### `FootnoteReferenceScanner` (`src/plugins/footnote/references.rs`) -/

/-- The label-gathering loop of `FootnoteReferenceScanner::run` (lines
79-88): consume characters up to `]`, failing on end-of-window or a space
(backslash escapes form part of the label). -/
def gatherLabel : List Char → Option (List Char)
  | [] => none
  | ']' :: _ => some []
  | ' ' :: _ => none
  | c :: rest => (gatherLabel rest).map (c :: ·)

/-- `FootnoteReferenceScanner::run` (lines 64-111).  Returns the produced
node with the consumed length, together with the updated state (`&mut`
embedding). -/
def footnoteReferenceRun (st : InlineStateM) : Option (Node × Nat) × InlineStateM :=
  match st.slice with
  | '[' :: '^' :: rest =>
      match gatherLabel rest with
      | none => (none, st)
      | some lbl =>
          if lbl.isEmpty then (none, st)
          else
            let (defs, ext') := st.rootExt.getOrInsertFootnote
            match defs.add_ref (String.mk lbl) with
            | (none, defs') =>
                -- no definition found so this is not a footnote reference
                (none, { st with rootExt := ext'.setFootnote defs' })
            | (some (def_id, ref_id), defs') =>
                let length := lbl.length + 3
                (some (.mk (.footnoteReference (some (String.mk lbl)) ref_id def_id) [],
                       length),
                 { st with rootExt := ext'.setFootnote defs' })
  | _ => (none, st)

/-! ### `InlineFootnoteScanner` (`src/plugins/footnote/inline.rs`) -/

/-- The scan for the closing `]` in `parse_footnote` (lines 120-141).
Modelled from the spec: `skip_token` delegates forward scanning to the
engine; it always advances the position, embedded here as a
single-character step. -/
def findCloser (src : List Char) (posMax : Nat) (p : Nat) : Option Nat :=
  if _h : posMax ≤ p then none
  else
    match charAt src posMax p with
    | none => none
    | some ch => if ch = ']' then some p else findCloser src posMax (p + 1)
termination_by posMax - p
decreasing_by omega

/-- `parse_footnote(state, start)`: the end position of the footnote body,
scanning from `start + 1`. -/
def parseFootnote (st : InlineStateM) (start : Nat) : Option Nat :=
  findCloser st.src st.posMax (start + 1)

/-- Modelled from the spec: `md.inline.tokenize` parses the current window
and appends the produced inline nodes as children of the current node
(§4.4).  The produced nodes are abstracted by the parameter `tok`. -/
def tokenizeInto (tok : InlineStateM → List Node) (st : InlineStateM) : InlineStateM :=
  { st with node := .mk st.node.value (st.node.children ++ tok st) }

/-- `InlineFootnoteScanner::run` (inline.rs lines 67-115), parametrized by
the engine's tokenizer. -/
def inlineFootnoteRun (tok : InlineStateM → List Node) (st : InlineStateM) :
    Option (Node × Nat) × InlineStateM :=
  match st.slice with
  | '^' :: '[' :: _ =>
      let contentStart := st.pos + 2
      match parseFootnote st contentStart with
      | none => (none, st)
      | some contentEnd =>
          let (footMap, ext') := st.rootExt.getOrInsertFootnote
          let ((def_id, ref_id), footMap') := footMap.add_inline_def
          -- create node and set it as current, narrow the window, tokenize
          let st1 := { st with
            rootExt := ext'.setFootnote footMap',
            node := .mk (.footnoteDefinition none (some def_id) true) [],
            pos := contentStart, posMax := contentEnd }
          let st2 := tokenizeInto tok st1
          -- restore window and current node
          let defNode := st2.node
          let st3 := { st2 with node := st.node, pos := st.pos, posMax := st.posMax }
          let refNode : Node := .mk (.footnoteReference none ref_id def_id) []
          let outer : Node := .mk .inlineFootnote [defNode, refNode]
          (some (outer, contentEnd + 1 - st.pos), st3)
  | _ => (none, st)

/-! ## Rendering (`FootnoteReference::render`, references.rs lines 39-56)

Modelled from the spec (§4.6, `mdparser/renderer.rs` is not in the
sources): the renderer is an abstract emission sink; a render call is
embedded as the sequence of emission operations it performs. -/

/-- One renderer emission operation. -/
inductive REvent where
  | openTag (tag : String) (attrs : List (String × String))
  | closeTag (tag : String)
  | selfClose (tag : String) (attrs : List (String × String))
  | text (s : String)
deriving DecidableEq, Repr

/-- `FootnoteReference::render`: the emissions it performs, given the node's
attribute list and the payload fields. -/
def footnoteReferenceRender (nodeAttrs : List (String × String))
    (ref_id def_id : Nat) : List REvent :=
  let attrs := nodeAttrs ++ [("class", "footnote-ref")]
  [ .openTag "sup" attrs,
    .openTag "a" [("href", "#fn" ++ toString def_id),
                  ("id", "fnref" ++ toString ref_id)],
    .text ("[" ++ toString def_id ++ "]"),
    .closeTag "a",
    .closeTag "sup" ]

/-! ## The fence block rule (`src/plugins/cmark/block/fence.rs`)

`BlockState` (`mdparser/block.rs`) is not in the sources; its accessors are
modelled from the spec (§3/§4.3): the document is a list of lines, `line`
is the cursor, `line_indent` is the per-line indentation relative to the
enclosing block (negative when the line is outdented from the parent), and
`get_lines(begin, end, ..)` returns the text of lines `[begin, end)` (the
indent-stripping detail is irrelevant to the claims and omitted: each line
is kept whole). -/

/-- The parts of `BlockState` read by `FenceScanner`. -/
structure BlockStateM where
  lines : List (List Char)
  line : Nat
  lineMax : Nat
  lineIndent : Nat → Int
  maxIndent : Int
  langPrefix : String

/-- `state.get_line(n)` — modelled from the spec. -/
def BlockStateM.getLine (st : BlockStateM) (n : Nat) : List Char :=
  st.lines.getD n []

/-- `state.get_lines(begin, end, ..)` — modelled from the spec: the lines
`[begin, end)`. -/
def BlockStateM.getLines (st : BlockStateM) (b e : Nat) : List (List Char) :=
  (st.lines.drop b).take (e - b)

/-- Count the leading run of `marker` characters. -/
def countLeading (marker : Char) : List Char → Nat
  | [] => 0
  | c :: rest => if c = marker then countLeading marker rest + 1 else 0

/-- The node produced by the fence rule (`struct CodeFence`).  `content` is
kept as the list of body lines (see `BlockStateM.getLines`). -/
structure CodeFence where
  info : List Char
  marker : Char
  marker_len : Nat
  content : List (List Char)
  lang_prefix : String
deriving DecidableEq, Repr

/-- `FenceScanner::get_header` (fence.rs lines 81-111): recognize a fence
opener on the current line. -/
def fenceGetHeader (st : BlockStateM) : Option (Char × Nat × List Char) :=
  if st.lineIndent st.line ≥ st.maxIndent then none
  else
    match st.getLine st.line with
    | [] => none
    | marker :: rest =>
        if marker ≠ '~' ∧ marker ≠ '`' then none
        else
          let len := countLeading marker rest + 1
          if len < 3 then none
          else
            let params := (st.getLine st.line).drop len
            if marker = '`' ∧ params.contains '`' then none
            else some (marker, len, params)

/-- The end-of-block search loop of `FenceScanner::run` (fence.rs lines
127-177), started at `state.line + 1`: returns the stopping line and
whether an end marker was found there. -/
def fenceFindEnd (st : BlockStateM) (marker : Char) (len : Nat) (n : Nat) : Nat × Bool :=
  if _h : st.lineMax ≤ n then
    -- unclosed block should be autoclosed by end of document
    (n, false)
  else
    let l := st.getLine n
    if l ≠ [] ∧ st.lineIndent n < 0 then
      -- non-empty line with negative indent should stop the list
      (n, false)
    else if l.head? ≠ some marker then fenceFindEnd st marker len (n + 1)
    else if st.lineIndent n ≥ st.maxIndent then fenceFindEnd st marker len (n + 1)
    else
      let lenEnd := countLeading marker l
      -- closing code fence must be at least as long as the opening one
      if lenEnd < len then fenceFindEnd st marker len (n + 1)
      else if (l.drop lenEnd).all (fun c => c = ' ' ∨ c = '\t') then (n, true)
      else fenceFindEnd st marker len (n + 1)
termination_by st.lineMax - n
decreasing_by all_goals omega

/-- `FenceScanner::run` (fence.rs lines 119-201). -/
def fenceRun (st : BlockStateM) : Option (CodeFence × Nat) :=
  match fenceGetHeader st with
  | none => none
  | some (marker, len, params) =>
      let (nextLine, haveEnd) := fenceFindEnd st marker len (st.line + 1)
      let content := st.getLines (st.line + 1) nextLine
      some ({ info := params, marker := marker, marker_len := len,
              content := content, lang_prefix := st.langPrefix },
            nextLine - st.line + if haveEnd then 1 else 0)

/-! ## Plugin registration (`src/lib.rs`, `MDParser::_enable_str`)

The individual `add` functions install rules into the parser; their bodies
live in files outside the modelled core, so registration is abstracted by
a parameter `adds` mapping a plugin name to its effect on the parser
value.  The dispatch itself — which names are known, and that the unknown
arm touches nothing and reports an error — is the code under scrutiny. -/

/-- `MDParser::_enable_str` (lib.rs lines 112-256), over an abstract parser
state `P` and registration effects `adds`.  Returns the result together
with the (possibly updated) parser. -/
def enableStr {P : Type} (adds : String → P → P) (p : P) (name : String) :
    Except String Unit × P :=
  match name with
  | "nl2br" => (.ok (), adds "nl2br" p)
  | "citation" => (.ok (), adds "citation" p)
  | "blockquote" => (.ok (), adds "blockquote" p)
  | "code" => (.ok (), adds "code" p)
  | "inkjet" => (.ok (), adds "inkjet" p)
  | "fence" => (.ok (), adds "fence" p)
  | "heading" => (.ok (), adds "heading" p)
  | "hr" => (.ok (), adds "hr" p)
  | "lheading" => (.ok (), adds "lheading" p)
  | "list" => (.ok (), adds "list" p)
  | "paragraph" => (.ok (), adds "paragraph" p)
  | "reference" => (.ok (), adds "reference" p)
  | "autolink" => (.ok (), adds "autolink" p)
  | "kagi_link" => (.ok (), adds "kagi_link" p)
  | "kagi_image" => (.ok (), adds "kagi_image" p)
  | "kagi_contact_info" => (.ok (), adds "kagi_contact_info" p)
  | "backticks" => (.ok (), adds "backticks" p)
  | "emphasis" => (.ok (), adds "emphasis" p)
  | "entity" => (.ok (), adds "entity" p)
  | "escape" => (.ok (), adds "escape" p)
  | "image" => (.ok (), adds "image" p)
  | "link" => (.ok (), adds "link" p)
  | "newline" => (.ok (), adds "newline" p)
  | "html_block" => (.ok (), adds "html_block" p)
  | "html_inline" => (.ok (), adds "html_inline" p)
  | "linkify" => (.ok (), adds "linkify" p)
  | "replacements" => (.ok (), adds "replacements" p)
  | "smartquotes" => (.ok (), adds "smartquotes" p)
  | "sourcepos" => (.ok (), adds "sourcepos" p)
  | "strikethrough" => (.ok (), adds "strikethrough" p)
  | "table" => (.ok (), adds "table" p)
  | "front_matter" => (.ok (), adds "front_matter" p)
  | "tasklist" => (.ok (), adds "tasklist" p)
  | "footnote" => (.ok (), adds "footnote" p)
  | "heading_anchors" => (.ok (), adds "heading_anchors" p)
  | "autolink_ext" => (.ok (), adds "autolink_ext" p)
  | "inline_math" => (.ok (), adds "inline_math" p)
  | "display_math" => (.ok (), adds "display_math" p)
  | _ => (.error ("Unknown plugin: " ++ name), p)

/-- The names `_enable_str` accepts, in match-arm order. -/
def knownPluginNames : List String :=
  ["nl2br", "citation", "blockquote", "code", "inkjet", "fence", "heading",
   "hr", "lheading", "list", "paragraph", "reference", "autolink",
   "kagi_link", "kagi_image", "kagi_contact_info", "backticks", "emphasis",
   "entity", "escape", "image", "link", "newline", "html_block",
   "html_inline", "linkify", "replacements", "smartquotes", "sourcepos",
   "strikethrough", "table", "front_matter", "tasklist", "footnote",
   "heading_anchors", "autolink_ext", "inline_math", "display_math"]

/-! ## The preprocessing hook (`src/mdparser/preprocess.rs`, lines 91-108)

The two rewriters (`process_contact_info`, `reenumerate_citations`) are
regex-based text transformations outside the modelled core; they are
abstracted by function parameters.  The hook's dispatch — which plugin
names trigger which processor, and that nothing runs otherwise — is the
code under scrutiny. -/

/-- `preprocess(src, enabled_plugins)`: run each registered processor in
order when its plugin name is enabled. -/
def preprocess (contactInfo citations : String → String)
    (src : String) (enabledPlugins : List String) : String :=
  let processors : List (String × (String → String)) :=
    [("kagi_contact_info", contactInfo), ("citation", citations)]
  processors.foldl
    (fun processed pr =>
      if enabledPlugins.contains pr.1 then pr.2 processed else processed)
    src

/-! ## Association-list lemmas -/

theorem assocFind_some_mem {α β : Type} [DecidableEq α] {l : List (α × β)} {k : α} {v : β}
    (h : assocFind l k = some v) : (k, v) ∈ l := by
  induction l with
  | nil => simp [assocFind] at h
  | cons p rest ih =>
      obtain ⟨k', v'⟩ := p
      by_cases hk : k' = k
      · subst hk
        simp [assocFind] at h
        simp [h]
      · simp [assocFind, hk] at h
        exact List.mem_cons_of_mem _ (ih h)

theorem assocFind_eq_none_iff {α β : Type} [DecidableEq α] {l : List (α × β)} {k : α} :
    assocFind l k = none ↔ k ∉ l.map Prod.fst := by
  induction l with
  | nil => simp [assocFind]
  | cons p rest ih =>
      obtain ⟨k', v'⟩ := p
      by_cases hk : k' = k
      · subst hk; simp [assocFind]
      · simp [assocFind, hk, ih, Ne.symm hk]

theorem assocSet_mem {α β : Type} [DecidableEq α] {l : List (α × β)} {k : α} {v : β}
    {p : α × β} (h : p ∈ assocSet l k v) : p ∈ l ∨ p = (k, v) := by
  induction l with
  | nil => simp [assocSet] at h
  | cons q rest ih =>
      obtain ⟨k', v'⟩ := q
      by_cases hk : k' = k
      · subst hk
        simp [assocSet] at h
        rcases h with h | h
        · exact Or.inr (by simp [h])
        · exact Or.inl (List.mem_cons_of_mem _ h)
      · simp [assocSet, hk] at h
        rcases h with h | h
        · exact Or.inl (by simp [h])
        · rcases ih h with h' | h'
          · exact Or.inl (List.mem_cons_of_mem _ h')
          · exact Or.inr h'

theorem assocInsert_mem {α β : Type} [DecidableEq α] {l : List (α × β)} {k : α} {v : β}
    {p : α × β} (h : p ∈ assocInsert l k v) : p ∈ l ∨ p = (k, v) := by
  unfold assocInsert at h
  split at h
  · exact assocSet_mem h
  · rcases List.mem_cons.mp h with h' | h'
    · exact Or.inr h'
    · exact Or.inl h'

theorem assocFind_assocSet_self {α β : Type} [DecidableEq α] {l : List (α × β)} {k : α}
    {v : β} (h : (assocFind l k).isSome) : assocFind (assocSet l k v) k = some v := by
  induction l with
  | nil => simp [assocFind] at h
  | cons q rest ih =>
      obtain ⟨k', v'⟩ := q
      by_cases hk : k' = k
      · subst hk; simp [assocSet, assocFind]
      · simp [assocFind, hk] at h
        simp [assocSet, assocFind, hk, ih h]

theorem assocFind_assocInsert_self {α β : Type} [DecidableEq α] (l : List (α × β)) (k : α)
    (v : β) : assocFind (assocInsert l k v) k = some v := by
  unfold assocInsert
  split
  · exact assocFind_assocSet_self (by assumption)
  · simp [assocFind]

/-! ## C2/C9 support: behaviour of single map operations -/

theorem add_def_fresh {m : FootnoteMap} {label : String}
    (h : assocFind m.label_to_def label = none) :
    m.add_def label =
      (some (m.def_counter + 1),
       { m with def_counter := m.def_counter + 1,
                label_to_def := (label, m.def_counter + 1) :: m.label_to_def }) := by
  simp [FootnoteMap.add_def, h]

theorem add_def_dup {m : FootnoteMap} {label : String}
    (h : (assocFind m.label_to_def label).isSome) :
    m.add_def label = (none, m) := by
  simp [FootnoteMap.add_def, h]

theorem add_ref_none {m : FootnoteMap} {label : String}
    (h : assocFind m.label_to_def label = none) :
    m.add_ref label = (none, m) := by
  simp [FootnoteMap.add_ref, h]

theorem add_ref_label_to_def (m : FootnoteMap) (label : String) :
    (m.add_ref label).2.label_to_def = m.label_to_def := by
  unfold FootnoteMap.add_ref
  cases h : assocFind m.label_to_def label <;> simp

theorem add_ref_some {m : FootnoteMap} {label : String} {d : Nat}
    (h : assocFind m.label_to_def label = some d) :
    (m.add_ref label).1 = some (d, m.ref_counter + 1) ∧
    (m.add_ref label).2.ref_counter = m.ref_counter + 1 := by
  simp [FootnoteMap.add_ref, h]

/-- The label-to-definition binding of a registered label survives any
further operation. -/
theorem applyOp_label_stable {m : FootnoteMap} {label : String} {d : Nat}
    (h : assocFind m.label_to_def label = some d) (op : FnOp) :
    assocFind (applyOp m op).label_to_def label = some d := by
  cases op with
  | adddef l =>
      unfold applyOp FootnoteMap.add_def
      by_cases hl : (assocFind m.label_to_def l).isSome
      · simp [hl, h]
      · have hne : l ≠ label := by
          intro he; subst he; rw [h] at hl; simp at hl
        simp [hl, assocFind, hne, h]
  | addref l => simpa [applyOp, add_ref_label_to_def] using h
  | addinline => simpa [applyOp, FootnoteMap.add_inline_def] using h

/-- The label-to-definition binding of a registered label survives any
further operation sequence. -/
theorem applyOps_label_stable {m : FootnoteMap} {label : String} {d : Nat}
    (h : assocFind m.label_to_def label = some d) (ops : List FnOp) :
    assocFind (applyOps m ops).label_to_def label = some d := by
  induction ops generalizing m with
  | nil => exact h
  | cons op ops ih => exact ih (applyOp_label_stable h op)

/-! ## Claim theorems -/

/-- C2: for every `FootnoteMap` and every label, the first `add_def` call
with that label returns `Some` of the freshly allocated definition id
(`def_counter + 1`); after any further operation sequence, another
`add_def` with the same label returns `None` and leaves the map (its
label-to-definition mapping included) unchanged, and an `add_ref` with
that label resolves to the id allocated by the first definition. -/
theorem add_def_first_wins (m : FootnoteMap) (label : String)
    (hfirst : assocFind m.label_to_def label = none) :
    (m.add_def label).1 = some (m.def_counter + 1) ∧
    ∀ ops : List FnOp,
      (applyOps (m.add_def label).2 ops).add_def label =
        (none, applyOps (m.add_def label).2 ops) ∧
      ((applyOps (m.add_def label).2 ops).add_ref label).1 =
        some (m.def_counter + 1,
              (applyOps (m.add_def label).2 ops).ref_counter + 1) := by
  rw [add_def_fresh hfirst]
  refine ⟨rfl, fun ops => ?_⟩
  have hreg : assocFind
      ({ m with def_counter := m.def_counter + 1,
                label_to_def := (label, m.def_counter + 1) :: m.label_to_def }
        : FootnoteMap).label_to_def label = some (m.def_counter + 1) := by
    simp [assocFind]
  have hstable := applyOps_label_stable hreg ops
  exact ⟨add_def_dup (by simp [hstable]), (add_ref_some hstable).1⟩

/-- Witness for `add_def_first_wins` at the empty map and label `"a"`,
with a duplicate definition and two later operations in between. -/
theorem add_def_first_wins_witness :
    assocFind FootnoteMap.default.label_to_def labelA = none ∧
    ((FootnoteMap.default.add_def labelA).1 = some 1 ∧
     ∀ ops : List FnOp,
      (applyOps (FootnoteMap.default.add_def labelA).2 ops).add_def labelA =
        (none, applyOps (FootnoteMap.default.add_def labelA).2 ops) ∧
      ((applyOps (FootnoteMap.default.add_def labelA).2 ops).add_ref labelA).1 =
        some (1, (applyOps (FootnoteMap.default.add_def labelA).2 ops).ref_counter + 1)) :=
  ⟨by decide, add_def_first_wins FootnoteMap.default "a" (by decide)⟩

/-- C6: the concrete scenario behind `"[^a]\n\n[^a]: note"`: on a fresh map
`add_def labelA` yields id 1, the following `add_ref labelA` yields `(1, 1)`,
`referenced_by 1` is exactly `[1]`, and rendering the resulting
`FootnoteReference` emits the anchor `id="fnref1"` pointing at
`href="#fn1"`. -/
theorem footnote_scenario_ids_and_anchor :
    (FootnoteMap.default.add_def labelA).1 = some 1 ∧
    (((FootnoteMap.default.add_def labelA).2).add_ref labelA).1 = some (1, 1) ∧
    ((((FootnoteMap.default.add_def labelA).2).add_ref labelA).2).referenced_by 1 = [1] ∧
    REvent.openTag "a" [("href", "#fn1"), ("id", "fnref1")]
      ∈ footnoteReferenceRender [] 1 1 := by
  refine ⟨by decide, by decide, by decide, by decide⟩

/-- C10: when neither `"kagi_contact_info"` nor `"citation"` is among the
enabled plugin names, `preprocess` applies no processor and returns the
source unchanged, whatever the two rewriters do. -/
theorem preprocess_noop (contactInfo citations : String → String)
    (src : String) (enabledPlugins : List String)
    (h1 : "kagi_contact_info" ∉ enabledPlugins)
    (h2 : "citation" ∉ enabledPlugins) :
    preprocess contactInfo citations src enabledPlugins = src := by
  simp [preprocess, h1, h2]

/-- Witness for `preprocess_noop`: a source and an enabled-plugin list
naming neither preprocessing plugin. -/
theorem preprocess_noop_witness :
    ("kagi_contact_info" : String) ∉ ["fence", "footnote"] ∧
    ("citation" : String) ∉ ["fence", "footnote"] ∧
    preprocess (fun _ => "changed") (fun _ => "changed") "# hi" ["fence", "footnote"]
      = "# hi" :=
  ⟨by decide, by decide,
   preprocess_noop _ _ "# hi" ["fence", "footnote"] (by decide) (by decide)⟩

/-- C8: `_enable_str` returns `Ok(())` exactly on the names of its known
plugin set, registering that plugin's rules; any other name yields the
`"Unknown plugin"` error and leaves the parser untouched. -/
theorem enableStr_known_ok_unknown_error {P : Type} (adds : String → P → P)
    (p : P) (name : String) :
    (name ∈ knownPluginNames → enableStr adds p name = (.ok (), adds name p)) ∧
    (name ∉ knownPluginNames →
      enableStr adds p name = (.error ("Unknown plugin: " ++ name), p)) := by
  constructor
  · intro hmem
    fin_cases hmem <;> rfl
  · intro hmem
    unfold enableStr
    split
    all_goals first
      | rfl
      | (exact absurd (by simp [knownPluginNames]) hmem)

/-- Witness for `enableStr_known_ok_unknown_error` at a known and an
unknown name (over a list-of-registered-names parser model). -/
theorem enableStr_witness :
    (("fence" : String) ∈ knownPluginNames ∧
      enableStr (fun n l => l ++ [n]) ([] : List String) "fence" =
        (.ok (), ["fence"])) ∧
    (("not_a_plugin" : String) ∉ knownPluginNames ∧
      enableStr (fun n l => l ++ [n]) ([] : List String) "not_a_plugin" =
        (.error ("Unknown plugin: " ++ "not_a_plugin"), [])) :=
  ⟨⟨by decide,
    (enableStr_known_ok_unknown_error (fun n l => l ++ [n]) [] "fence").1
      (by decide)⟩,
   ⟨by decide,
    (enableStr_known_ok_unknown_error (fun n l => l ++ [n]) [] "not_a_plugin").2
      (by decide)⟩⟩

/-- C3: a reference is only created against an existing definition: when a
label has no registered definition, `add_ref` returns `None` leaving the
map completely unchanged, and `FootnoteReferenceScanner::run` on a
well-formed `[^label]` window with such a label returns `None` (no
`FootnoteReference` node is produced) and stores the map back unmodified. -/
theorem unresolved_reference_rejected (st : InlineStateM) (rest lbl : List Char)
    (hslice : st.slice = '[' :: '^' :: rest)
    (hlbl : gatherLabel rest = some lbl)
    (hnonempty : lbl ≠ [])
    (hnodef : assocFind st.rootExt.getOrInsertFootnote.1.label_to_def
                (String.mk lbl) = none) :
    st.rootExt.getOrInsertFootnote.1.add_ref (String.mk lbl) =
      (none, st.rootExt.getOrInsertFootnote.1) ∧
    (footnoteReferenceRun st).1 = none ∧
    (footnoteReferenceRun st).2.rootExt.footnote =
      some st.rootExt.getOrInsertFootnote.1 := by
  have hre := add_ref_none hnodef
  have hemp : lbl.isEmpty = false := by
    cases lbl with
    | nil => exact absurd rfl hnonempty
    | cons c cs => rfl
  refine ⟨hre, ?_, ?_⟩ <;>
    simp [footnoteReferenceRun, hslice, hlbl, hemp, hre, RootExtSet.setFootnote]

/-- The state scanning `"[^a]"` with an empty root store. -/
def stNoDef : InlineStateM :=
  { src := ['[', '^', 'a', ']'], pos := 0, posMax := 4,
    node := .mk (.other 0) [], rootExt := RootExtSet.default }

/-- Witness for `unresolved_reference_rejected`: the scenario `"[^a]"` with
no definition anywhere (empty root store). -/
theorem unresolved_reference_rejected_witness :
    stNoDef.slice = '[' :: '^' :: ['a', ']'] ∧
    gatherLabel ['a', ']'] = some ['a'] ∧
    ['a'] ≠ [] ∧
    assocFind stNoDef.rootExt.getOrInsertFootnote.1.label_to_def
      (String.mk ['a']) = none ∧
    (stNoDef.rootExt.getOrInsertFootnote.1.add_ref (String.mk ['a']) =
        (none, stNoDef.rootExt.getOrInsertFootnote.1) ∧
      (footnoteReferenceRun stNoDef).1 = none ∧
      (footnoteReferenceRun stNoDef).2.rootExt.footnote =
        some stNoDef.rootExt.getOrInsertFootnote.1) :=
  ⟨by decide, by decide, by decide, by decide,
   unresolved_reference_rejected stNoDef ['a', ']'] ['a']
     (by decide) (by decide) (by decide) (by decide)⟩

/-- C4: `add_inline_def` always succeeds, incrementing both counters
exactly once and recording the fresh reference id as the sole reference of
the fresh definition id; on a successful `^[...]` match,
`InlineFootnoteScanner::run` produces one inline-flagged
`FootnoteDefinition` node and one `FootnoteReference` node sharing that
freshly allocated id pair, wrapped together in one `InlineFootnote` node. -/
theorem inline_footnote_atomic (m : FootnoteMap)
    (tok : InlineStateM → List Node) (st : InlineStateM) (rest : List Char)
    (ce : Nat)
    (hslice : st.slice = '^' :: '[' :: rest)
    (hpf : parseFootnote st (st.pos + 2) = some ce) :
    (m.add_inline_def.1 = (m.def_counter + 1, m.ref_counter + 1) ∧
     m.add_inline_def.2.def_counter = m.def_counter + 1 ∧
     m.add_inline_def.2.ref_counter = m.ref_counter + 1 ∧
     m.add_inline_def.2.referenced_by (m.def_counter + 1) = [m.ref_counter + 1]) ∧
    ∃ cc, (inlineFootnoteRun tok st).1 =
      some (.mk .inlineFootnote
        [.mk (.footnoteDefinition none
               (some (st.rootExt.getOrInsertFootnote.1.add_inline_def.1.1)) true) cc,
         .mk (.footnoteReference none
               (st.rootExt.getOrInsertFootnote.1.add_inline_def.1.2)
               (st.rootExt.getOrInsertFootnote.1.add_inline_def.1.1)) []],
        ce + 1 - st.pos) := by
  constructor
  · refine ⟨rfl, rfl, rfl, ?_⟩
    simp [FootnoteMap.add_inline_def, FootnoteMap.referenced_by,
      assocFind_assocInsert_self]
  · simp only [inlineFootnoteRun, hslice, hpf]
    exact ⟨_, rfl⟩

/-- The state scanning `"^[x]"` with an empty root store. -/
def stInline : InlineStateM :=
  { src := ['^', '[', 'x', ']'], pos := 0, posMax := 4,
    node := .mk .paragraph [], rootExt := RootExtSet.default }

/-- An engine tokenizer producing one text node. -/
def tokX : InlineStateM → List Node := fun _ => [.mk (.text "x") []]

/-- Witness for `inline_footnote_atomic`: the scenario `"^[x]"` on a fresh
state. -/
theorem inline_footnote_atomic_witness :
    stInline.slice = '^' :: '[' :: ['x', ']'] ∧
    parseFootnote stInline (stInline.pos + 2) = some 3 ∧
    ((FootnoteMap.default.add_inline_def.1 = (1, 1) ∧
      FootnoteMap.default.add_inline_def.2.def_counter = 1 ∧
      FootnoteMap.default.add_inline_def.2.ref_counter = 1 ∧
      FootnoteMap.default.add_inline_def.2.referenced_by 1 = [1]) ∧
     ∃ cc, (inlineFootnoteRun tokX stInline).1 =
      some (.mk .inlineFootnote
        [.mk (.footnoteDefinition none
               (some (stInline.rootExt.getOrInsertFootnote.1.add_inline_def.1.1)) true) cc,
         .mk (.footnoteReference none
               (stInline.rootExt.getOrInsertFootnote.1.add_inline_def.1.2)
               (stInline.rootExt.getOrInsertFootnote.1.add_inline_def.1.1)) []],
        3 + 1 - stInline.pos)) :=
  ⟨by decide, by simp [parseFootnote, findCloser, charAt, stInline],
   inline_footnote_atomic FootnoteMap.default tokX stInline ['x', ']'] 3
     (by decide) (by simp [parseFootnote, findCloser, charAt, stInline])⟩

/-- C5: when the root store holds no `FootnoteMap`, the collect pass
returns early: the children are left untouched — but the whole root
extension store, emptied by `std::mem::take`, is never restored on this
path, so previously stored values of other extension types are lost (the
second conjunct shows a store that differs from the post-run empty one). -/
theorem collect_without_map_drops_root_ext (others : List String)
    (children : List Node) :
    collectRun { footnote := none, others := others } children
      = (RootExtSet.default, children) ∧
    ({ footnote := none, others := ["slugger state"] } : RootExtSet)
      ≠ RootExtSet.default :=
  ⟨rfl, by decide⟩

/-! ### C9 invariants -/

theorem applyOp_adddef (m : FootnoteMap) (l : String) :
    applyOp m (.adddef l) = (m.add_def l).2 := rfl

theorem applyOp_addref (m : FootnoteMap) (l : String) :
    applyOp m (.addref l) = (m.add_ref l).2 := rfl

theorem applyOp_addinline (m : FootnoteMap) :
    applyOp m .addinline = m.add_inline_def.2 := rfl

theorem add_def_none_eq {m : FootnoteMap} {l : String}
    (h : (m.add_def l).1 = none) : (m.add_def l).2 = m := by
  unfold FootnoteMap.add_def at h ⊢
  by_cases hc : (assocFind m.label_to_def l).isSome
  · simp [hc]
  · simp [hc] at h

theorem add_def_some_eq {m : FootnoteMap} {l : String} {d : Nat}
    (h : (m.add_def l).1 = some d) :
    d = m.def_counter + 1 ∧
    (m.add_def l).2.def_counter = m.def_counter + 1 ∧
    (m.add_def l).2.ref_counter = m.ref_counter ∧
    (m.add_def l).2.def_to_refs = m.def_to_refs := by
  unfold FootnoteMap.add_def at h ⊢
  by_cases hc : (assocFind m.label_to_def l).isSome
  · simp [hc] at h
  · simp only [hc, if_false, Bool.false_eq_true] at h ⊢
    simp at h
    simp [← h]

theorem add_ref_fst_none {m : FootnoteMap} {l : String}
    (hc : assocFind m.label_to_def l = none) : m.add_ref l = (none, m) := by
  unfold FootnoteMap.add_ref
  rw [hc]

theorem add_ref_fst_some {m : FootnoteMap} {l : String} {d : Nat}
    (hc : assocFind m.label_to_def l = some d) :
    (m.add_ref l).1 = some (d, m.ref_counter + 1) ∧
    (m.add_ref l).2.ref_counter = m.ref_counter + 1 ∧
    (m.add_ref l).2.def_counter = m.def_counter := by
  unfold FootnoteMap.add_ref
  rw [hc]
  exact ⟨rfl, rfl, rfl⟩

theorem add_ref_none_eq {m : FootnoteMap} {l : String}
    (h : (m.add_ref l).1 = none) : (m.add_ref l).2 = m := by
  cases hc : assocFind m.label_to_def l with
  | none => rw [add_ref_fst_none hc]
  | some d =>
      rw [(add_ref_fst_some hc).1] at h
      simp at h

theorem add_ref_some_eq {m : FootnoteMap} {l : String} {p : Nat × Nat}
    (h : (m.add_ref l).1 = some p) :
    p.2 = m.ref_counter + 1 ∧
    (m.add_ref l).2.ref_counter = m.ref_counter + 1 ∧
    (m.add_ref l).2.def_counter = m.def_counter := by
  cases hc : assocFind m.label_to_def l with
  | none => rw [add_ref_fst_none hc] at h; simp at h
  | some d =>
      obtain ⟨h1, h2, h3⟩ := add_ref_fst_some hc
      rw [h1] at h
      obtain rfl : (d, m.ref_counter + 1) = p := by simpa using h
      exact ⟨rfl, h2, h3⟩

theorem add_inline_def_counters (m : FootnoteMap) :
    m.add_inline_def.1.1 = m.def_counter + 1 ∧
    m.add_inline_def.1.2 = m.ref_counter + 1 ∧
    m.add_inline_def.2.def_counter = m.def_counter + 1 ∧
    m.add_inline_def.2.ref_counter = m.ref_counter + 1 :=
  ⟨rfl, rfl, rfl, rfl⟩

theorem add_def_def_to_refs (m : FootnoteMap) (l : String) :
    (m.add_def l).2.def_to_refs = m.def_to_refs := by
  unfold FootnoteMap.add_def
  split <;> simp

theorem add_def_ref_counter (m : FootnoteMap) (l : String) :
    (m.add_def l).2.ref_counter = m.ref_counter := by
  unfold FootnoteMap.add_def
  split <;> simp

theorem add_ref_dtr_some {m : FootnoteMap} {l : String} {d : Nat}
    (hc : assocFind m.label_to_def l = some d) :
    (m.add_ref l).2.def_to_refs =
      match assocFind m.def_to_refs d with
      | some refs => assocSet m.def_to_refs d (refs ++ [m.ref_counter + 1])
      | none => (d, [m.ref_counter + 1]) :: m.def_to_refs := by
  unfold FootnoteMap.add_ref
  rw [hc]

/-- Both id counters are non-decreasing under every operation. -/
theorem applyOp_counters_mono (m : FootnoteMap) (op : FnOp) :
    m.def_counter ≤ (applyOp m op).def_counter ∧
    m.ref_counter ≤ (applyOp m op).ref_counter := by
  cases op with
  | adddef l =>
      rw [applyOp_adddef]
      rcases h : (m.add_def l).1 with _ | d
      · rw [add_def_none_eq h]; omega
      · obtain ⟨-, h1, h2, -⟩ := add_def_some_eq h
        omega
  | addref l =>
      rw [applyOp_addref]
      rcases h : (m.add_ref l).1 with _ | p
      · rw [add_ref_none_eq h]; omega
      · obtain ⟨-, h1, h2⟩ := add_ref_some_eq h
        omega
  | addinline =>
      rw [applyOp_addinline]
      obtain ⟨-, -, h1, h2⟩ := add_inline_def_counters m
      omega

/-- Allocated definition ids all exceed the starting counter and form a
strictly increasing sequence. -/
theorem allocatedDefIds_fresh (ops : List FnOp) : ∀ m : FootnoteMap,
    (∀ x ∈ allocatedDefIds m ops, m.def_counter < x) ∧
    List.Chain' (· < ·) (allocatedDefIds m ops) := by
  induction ops with
  | nil => intro m; simp [allocatedDefIds]
  | cons op ops ih =>
      intro m
      obtain ⟨ihb, ihc⟩ := ih (applyOp m op)
      have key : ∀ pre : List Nat,
          allocatedDefIds m (op :: ops) = pre ++ allocatedDefIds (applyOp m op) ops →
          (pre = [] → m.def_counter ≤ (applyOp m op).def_counter →
            (∀ x ∈ allocatedDefIds m (op :: ops), m.def_counter < x) ∧
            List.Chain' (· < ·) (allocatedDefIds m (op :: ops))) := by
        intro pre hpre hnil hmono
        subst hnil
        rw [hpre, List.nil_append]
        refine ⟨fun x hx => lt_of_le_of_lt hmono (ihb x hx), ihc⟩
      have single : ∀ d : Nat,
          allocatedDefIds m (op :: ops) = d :: allocatedDefIds (applyOp m op) ops →
          d = m.def_counter + 1 → (applyOp m op).def_counter = m.def_counter + 1 →
            (∀ x ∈ allocatedDefIds m (op :: ops), m.def_counter < x) ∧
            List.Chain' (· < ·) (allocatedDefIds m (op :: ops)) := by
        intro d hpre hd hcnt
        rw [hpre]
        constructor
        · intro x hx
          rcases List.mem_cons.mp hx with rfl | hx
          · omega
          · have := ihb x hx
            omega
        · refine List.chain'_cons'.mpr ⟨?_, ihc⟩
          intro y hy
          have := ihb y (List.mem_of_mem_head? hy)
          omega
      cases op with
      | adddef l =>
          rcases h : (m.add_def l).1 with _ | d
          · refine key [] ?_ rfl (applyOp_counters_mono m _).1
            simp [allocatedDefIds, h]
          · obtain ⟨hd, hcnt, -, -⟩ := add_def_some_eq h
            refine single d ?_ hd (by rw [applyOp_adddef]; exact hcnt)
            simp [allocatedDefIds, h]
      | addref l =>
          refine key [] ?_ rfl (applyOp_counters_mono m _).1
          simp [allocatedDefIds]
      | addinline =>
          obtain ⟨hd, -, hcnt, -⟩ := add_inline_def_counters m
          refine single _ ?_ hd (by rw [applyOp_addinline]; exact hcnt)
          simp [allocatedDefIds]

/-- Allocated reference ids all exceed the starting counter and form a
strictly increasing sequence. -/
theorem allocatedRefIds_fresh (ops : List FnOp) : ∀ m : FootnoteMap,
    (∀ x ∈ allocatedRefIds m ops, m.ref_counter < x) ∧
    List.Chain' (· < ·) (allocatedRefIds m ops) := by
  induction ops with
  | nil => intro m; simp [allocatedRefIds]
  | cons op ops ih =>
      intro m
      obtain ⟨ihb, ihc⟩ := ih (applyOp m op)
      have key : allocatedRefIds m (op :: ops) = allocatedRefIds (applyOp m op) ops →
          m.ref_counter ≤ (applyOp m op).ref_counter →
            (∀ x ∈ allocatedRefIds m (op :: ops), m.ref_counter < x) ∧
            List.Chain' (· < ·) (allocatedRefIds m (op :: ops)) := by
        intro hpre hmono
        rw [hpre]
        refine ⟨fun x hx => lt_of_le_of_lt hmono (ihb x hx), ihc⟩
      have single : ∀ r : Nat,
          allocatedRefIds m (op :: ops) = r :: allocatedRefIds (applyOp m op) ops →
          r = m.ref_counter + 1 → (applyOp m op).ref_counter = m.ref_counter + 1 →
            (∀ x ∈ allocatedRefIds m (op :: ops), m.ref_counter < x) ∧
            List.Chain' (· < ·) (allocatedRefIds m (op :: ops)) := by
        intro r hpre hr hcnt
        rw [hpre]
        constructor
        · intro x hx
          rcases List.mem_cons.mp hx with rfl | hx
          · omega
          · have := ihb x hx
            omega
        · refine List.chain'_cons'.mpr ⟨?_, ihc⟩
          intro y hy
          have := ihb y (List.mem_of_mem_head? hy)
          omega
      cases op with
      | adddef l =>
          refine key ?_ (applyOp_counters_mono m _).2
          simp [allocatedRefIds]
      | addref l =>
          rcases h : (m.add_ref l).1 with _ | p
          · refine key ?_ (applyOp_counters_mono m _).2
            simp [allocatedRefIds, h]
          · obtain ⟨hr, hcnt, -⟩ := add_ref_some_eq h
            refine single p.2 ?_ hr (by rw [applyOp_addref]; exact hcnt)
            simp [allocatedRefIds, h]
      | addinline =>
          obtain ⟨-, hr, -, hcnt⟩ := add_inline_def_counters m
          refine single _ ?_ hr (by rw [applyOp_addinline]; exact hcnt)
          simp [allocatedRefIds]

/-- Distinct labels: the keys of `label_to_def` stay duplicate-free. -/
theorem applyOp_keysNodup {m : FootnoteMap}
    (h : (m.label_to_def.map Prod.fst).Nodup) (op : FnOp) :
    ((applyOp m op).label_to_def.map Prod.fst).Nodup := by
  cases op with
  | adddef l =>
      rw [applyOp_adddef]
      unfold FootnoteMap.add_def
      split
      · exact h
      · rename_i hfind
        have hnotin : l ∉ m.label_to_def.map Prod.fst := by
          rw [← assocFind_eq_none_iff]
          cases hf : assocFind m.label_to_def l
          · rfl
          · rw [hf] at hfind; simp at hfind
        simpa [hnotin] using h
  | addref l => simpa [applyOp_addref, add_ref_label_to_def] using h
  | addinline => simpa [applyOp_addinline, FootnoteMap.add_inline_def] using h

/-- Per-definition reference lists are strictly increasing and bounded by
the reference counter. -/
def RefsOrdered (m : FootnoteMap) : Prop :=
  ∀ p ∈ m.def_to_refs,
    List.Chain' (· < ·) p.2 ∧ ∀ r ∈ p.2, r ≤ m.ref_counter

theorem applyOp_refsOrdered {m : FootnoteMap} (h : RefsOrdered m) (op : FnOp) :
    RefsOrdered (applyOp m op) := by
  cases op with
  | adddef l =>
      intro p hp
      rw [applyOp_adddef, add_def_def_to_refs] at hp
      rw [applyOp_adddef, add_def_ref_counter]
      exact h p hp
  | addref l =>
      intro p hp
      rw [applyOp_addref] at hp ⊢
      cases hfind : assocFind m.label_to_def l with
      | none =>
          rw [add_ref_fst_none hfind] at hp ⊢
          exact h p hp
      | some d =>
          rw [add_ref_dtr_some hfind] at hp
          rw [(add_ref_fst_some hfind).2.1]
          cases hrefs : assocFind m.def_to_refs d with
          | none =>
              rw [hrefs] at hp
              rcases List.mem_cons.mp hp with rfl | hp'
              · exact ⟨by simp, by simp⟩
              · obtain ⟨hc, hb⟩ := h p hp'
                exact ⟨hc, fun r hr => Nat.le_succ_of_le (hb r hr)⟩
          | some refs =>
              rw [hrefs] at hp
              obtain ⟨hcr, hbr⟩ := h _ (assocFind_some_mem hrefs)
              rcases assocSet_mem hp with hp' | hp'
              · obtain ⟨hc, hb⟩ := h p hp'
                exact ⟨hc, fun r hr => Nat.le_succ_of_le (hb r hr)⟩
              · subst hp'
                refine ⟨?_, ?_⟩
                · rw [List.chain'_append]
                  refine ⟨hcr, List.chain'_singleton _, ?_⟩
                  intro x hx y hy
                  simp at hy
                  subst hy
                  have hxm : x ∈ refs := List.mem_of_mem_getLast? hx
                  exact Nat.lt_succ_of_le (hbr x hxm)
                · intro r hr
                  rcases List.mem_append.mp hr with hr | hr
                  · exact Nat.le_succ_of_le (hbr r hr)
                  · simp at hr; omega
  | addinline =>
      intro p hp
      rw [applyOp_addinline] at hp ⊢
      have hdtr : m.add_inline_def.2.def_to_refs
          = assocInsert m.def_to_refs (m.def_counter + 1) [m.ref_counter + 1] := rfl
      have hrc : m.add_inline_def.2.ref_counter = m.ref_counter + 1 := rfl
      rw [hdtr] at hp
      rw [hrc]
      rcases assocInsert_mem hp with hp' | hp'
      · obtain ⟨hc, hb⟩ := h p hp'
        exact ⟨hc, fun r hr => Nat.le_succ_of_le (hb r hr)⟩
      · subst hp'
        exact ⟨by simp, by simp⟩

/-- Iterated version of `applyOp_keysNodup`. -/
theorem applyOps_keysNodup {m : FootnoteMap}
    (h : (m.label_to_def.map Prod.fst).Nodup) (ops : List FnOp) :
    ((applyOps m ops).label_to_def.map Prod.fst).Nodup := by
  induction ops generalizing m with
  | nil => exact h
  | cons op ops ih => exact ih (applyOp_keysNodup h op)

/-- Iterated version of `applyOp_refsOrdered`. -/
theorem applyOps_refsOrdered {m : FootnoteMap} (h : RefsOrdered m)
    (ops : List FnOp) : RefsOrdered (applyOps m ops) := by
  induction ops generalizing m with
  | nil => exact h
  | cons op ops ih => exact ih (applyOp_refsOrdered h op)

/-- C9 (amended): across any operation sequence from a fresh map, both
counters are monotonically non-decreasing under every operation; the
freshly *allocated* definition ids and reference ids each form a strictly
increasing (hence duplicate-free) sequence; each label maps to at most one
definition id; and every per-definition reference list is strictly
increasing, i.e. lists the citing reference ids in allocation order.
(`add_ref` additionally returns the *existing* definition id it resolves
to — see the counterexample.) -/
theorem footnote_map_invariants (ops : List FnOp) :
    (∀ (m : FootnoteMap) (op : FnOp),
       m.def_counter ≤ (applyOp m op).def_counter ∧
       m.ref_counter ≤ (applyOp m op).ref_counter) ∧
    List.Chain' (· < ·) (allocatedDefIds FootnoteMap.default ops) ∧
    List.Chain' (· < ·) (allocatedRefIds FootnoteMap.default ops) ∧
    ((applyOps FootnoteMap.default ops).label_to_def.map Prod.fst).Nodup ∧
    ∀ p ∈ (applyOps FootnoteMap.default ops).def_to_refs,
      List.Chain' (· < ·) p.2 :=
  ⟨applyOp_counters_mono,
   (allocatedDefIds_fresh ops FootnoteMap.default).2,
   (allocatedRefIds_fresh ops FootnoteMap.default).2,
   applyOps_keysNodup (by simp [FootnoteMap.default]) ops,
   fun p hp =>
     (applyOps_refsOrdered (fun q hq => by simp [FootnoteMap.default] at hq) ops
       p hp).1⟩

/-- C9 counterexample: the definition id `1` is returned three times — by
the `add_def` that allocates it and by both subsequent `add_ref` calls
(which resolve to it) — refuting "every definition id ... returned across
any sequence of operations is fresh (never returned before)" as stated. -/
theorem add_ref_returns_existing_def_id :
    (FootnoteMap.default.add_def labelA).1 = some 1 ∧
    ((FootnoteMap.default.add_def labelA).2.add_ref labelA).1 = some (1, 1) ∧
    (((FootnoteMap.default.add_def labelA).2.add_ref labelA).2.add_ref labelA).1
      = some (1, 2) := by
  decide

/-! ### C7: the fence rule -/

/-- The end-search never stops before the line it starts at. -/
theorem fenceFindEnd_ge (st : BlockStateM) (marker : Char) (len : Nat) :
    ∀ n, n ≤ (fenceFindEnd st marker len n).1 := by
  have H : ∀ k n, st.lineMax - n ≤ k → n ≤ (fenceFindEnd st marker len n).1 := by
    intro k
    induction k with
    | zero =>
        intro n hle
        have h : st.lineMax ≤ n := by omega
        rw [fenceFindEnd]
        simp [h]
    | succ k ih =>
        intro n hle
        rw [fenceFindEnd]
        by_cases h : st.lineMax ≤ n
        · simp [h]
        · have hrec : n ≤ (fenceFindEnd st marker len (n + 1)).1 :=
            le_trans (Nat.le_succ n) (ih (n + 1) (by omega))
          simp only [h, dite_false]
          split
          · exact le_rfl
          · split
            · exact hrec
            · split
              · exact hrec
              · split
                · exact hrec
                · split
                  · exact le_rfl
                  · exact hrec
  intro n
  exact H (st.lineMax - n) n le_rfl

/-- C7: on a valid fence opener, `FenceScanner::run` always succeeds — the
end-search stops at the end marker, at the end of the document, or at a
negative-indent line, auto-closing the fence there; the node's content is
exactly the lines strictly after the opener up to the stopping line; the
reported lines-consumed count is at least 1 and counts the closing-marker
line exactly when an end marker was found. -/
theorem fence_run_autoclose (st : BlockStateM) (marker : Char) (len : Nat)
    (params : List Char)
    (h : fenceGetHeader st = some (marker, len, params)) :
    ∃ nl he, fenceFindEnd st marker len (st.line + 1) = (nl, he) ∧
      fenceRun st = some
        ({ info := params, marker := marker, marker_len := len,
           content := st.getLines (st.line + 1) nl,
           lang_prefix := st.langPrefix },
         nl - st.line + if he then 1 else 0) ∧
      st.line + 1 ≤ nl ∧
      1 ≤ nl - st.line + if he then 1 else 0 := by
  rcases hfe : fenceFindEnd st marker len (st.line + 1) with ⟨nl, he⟩
  have hge : st.line + 1 ≤ nl := by
    have := fenceFindEnd_ge st marker len (st.line + 1)
    rw [hfe] at this
    exact this
  refine ⟨nl, he, rfl, ?_, hge, by omega⟩
  unfold fenceRun
  rw [h]
  simp only [hfe]

/-- A fence opener that is never closed: three backticks followed by one
content line, no closing marker before the end of the document. -/
def stFence : BlockStateM :=
  { lines := [['`', '`', '`'], ['x']], line := 0, lineMax := 2,
    lineIndent := fun _ => 0, maxIndent := 3, langPrefix := "language-" }

/-- Witness for `fence_run_autoclose` at an unclosed fence. -/
theorem fence_run_autoclose_witness :
    fenceGetHeader stFence = some ('`', 3, []) ∧
    (∃ nl he, fenceFindEnd stFence '`' 3 (stFence.line + 1) = (nl, he) ∧
      fenceRun stFence = some
        ({ info := [], marker := '`', marker_len := 3,
           content := stFence.getLines (stFence.line + 1) nl,
           lang_prefix := stFence.langPrefix },
         nl - stFence.line + if he then 1 else 0) ∧
      stFence.line + 1 ≤ nl ∧
      1 ≤ nl - stFence.line + if he then 1 else 0) :=
  ⟨by decide, fence_run_autoclose stFence '`' 3 [] (by decide)⟩

/-! ### C1: the collect pass -/

/-- Is this payload a `PlaceholderNode`? -/
def NV.isPHV : NV → Bool
  | .placeholder => true
  | _ => false

/-- Is this payload a `FootnotesContainerNode`? -/
def NV.isContV : NV → Bool
  | .footnotesContainer => true
  | _ => false

/-- The definitions the walk encounters in a forest hanging below the
root, in encounter order (root visitor scan first, then the descent). -/
def encDefsForest (cs : List Node) : List Node :=
  cs.filter Node.isDef ++ encDefsList cs

theorem Node.isDef_mk (v : NV) (cs : List Node) :
    (Node.mk v cs).isDef = v.isDefV := by
  cases v <;> rfl

theorem Node.isPlaceholder_mk (v : NV) (cs : List Node) :
    (Node.mk v cs).isPlaceholder = v.isPHV := by
  cases v <;> rfl

theorem keepChild_mk (v : NV) (cs : List Node) :
    keepChild (Node.mk v cs) = (!v.isDefV && !v.isPHV) := by
  simp [keepChild, Node.isDef_mk, Node.isPlaceholder_mk]

theorem extractKeep_eq_false_of_not_def {map : FootnoteMap} {c : Node}
    (h : c.isDef = false) : extractKeep map c = false := by
  obtain ⟨v, cs⟩ := c
  rw [Node.isDef_mk] at h
  cases v <;> simp_all [extractKeep, NV.isDefV]

/-- `extractList` ignores the preliminary definition filter. -/
theorem filter_isDef_extractKeep (map : FootnoteMap) (cs : List Node) :
    (cs.filter Node.isDef).filter (extractKeep map) = cs.filter (extractKeep map) := by
  induction cs with
  | nil => rfl
  | cons c cs ih =>
      by_cases hd : c.isDef
      · simp [hd, List.filter_cons, ih]
      · have hk : extractKeep map c = false :=
          extractKeep_eq_false_of_not_def (by simpa using hd)
        simp [List.filter_cons, hd, hk, ih]

theorem allValsList_append (p : NV → Bool) (a b : List Node) :
    allValsList p (a ++ b) = (allValsList p a && allValsList p b) := by
  induction a with
  | nil => simp [allValsList]
  | cons c a ih => simp [allValsList, ih, Bool.and_assoc]

theorem pDefsList_append (a b : List Node) :
    pDefsList (a ++ b) = pDefsList a ++ pDefsList b := by
  induction a with
  | nil => simp [pDefsList]
  | cons c a ih => simp [pDefsList, ih]

mutual

/-- `allVals` is monotone in the predicate. -/
theorem allVals_imp (p q : NV → Bool) (hpq : ∀ v, p v = true → q v = true) :
    ∀ n : Node, allVals p n = true → allVals q n = true
  | .mk v cs, h => by
      rw [allVals] at h ⊢
      simp only [Bool.and_eq_true] at h ⊢
      exact ⟨hpq v h.1, allValsList_imp p q hpq cs h.2⟩

/-- `allValsList` is monotone in the predicate. -/
theorem allValsList_imp (p q : NV → Bool) (hpq : ∀ v, p v = true → q v = true) :
    ∀ cs : List Node, allValsList p cs = true → allValsList q cs = true
  | [], _ => rfl
  | c :: cs, h => by
      rw [allValsList] at h ⊢
      simp only [Bool.and_eq_true] at h ⊢
      exact ⟨allVals_imp p q hpq c h.1, allValsList_imp p q hpq cs h.2⟩

end

mutual

/-- A definition-free tree contributes no pre-order definitions. -/
theorem pDefs_nil_of_defFree :
    ∀ n : Node, allVals (fun v => !v.isDefV) n = true → pDefs n = []
  | .mk v cs, h => by
      rw [allVals] at h
      simp only [Bool.and_eq_true] at h
      have h1 : v.isDefV = false := by simpa using h.1
      rw [pDefs, Node.isDef_mk]
      simp [h1, pDefsList_nil_of_defFree cs h.2]

/-- A definition-free forest contributes no pre-order definitions. -/
theorem pDefsList_nil_of_defFree :
    ∀ cs : List Node, allValsList (fun v => !v.isDefV) cs = true → pDefsList cs = []
  | [], _ => rfl
  | c :: cs, h => by
      rw [allValsList] at h
      simp only [Bool.and_eq_true] at h
      rw [pDefsList, pDefs_nil_of_defFree c h.1, pDefsList_nil_of_defFree cs h.2]
      rfl

end

mutual

/-- The definitions collected below a node are the encounter-ordered,
reference-filtered, wrapped definitions of that subtree. -/
theorem collectNode_defs (map : FootnoteMap) :
    ∀ n : Node, (collectNode map n).2
      = ((encDefs n).filter (extractKeep map)).map wrapIfInline
  | .mk v cs => by
      rw [collectNode, encDefs]
      simp only [walkKept_defs map cs, extractList, List.filter_append,
        List.map_append, filter_isDef_extractKeep]

/-- The definitions collected during the descent into surviving children. -/
theorem walkKept_defs (map : FootnoteMap) :
    ∀ cs : List Node, (walkKept map cs).2
      = ((encDefsList cs).filter (extractKeep map)).map wrapIfInline
  | [] => rfl
  | c :: cs => by
      rw [walkKept, encDefsList]
      by_cases hk : keepChild c
      · simp only [hk, if_true, collectNode_defs map c, walkKept_defs map cs,
          List.filter_append, List.map_append]
      · simp [hk, walkKept_defs map cs]

end

mutual

/-- Nodes surviving the walk are neither definitions nor placeholders, at
every level. -/
theorem collectNode_clean (map : FootnoteMap) :
    ∀ n : Node, keepChild n = true →
      allVals (fun v => !v.isDefV && !v.isPHV) (collectNode map n).1 = true
  | .mk v cs, hk => by
      rw [collectNode, allVals]
      rw [keepChild_mk] at hk
      simp only [Bool.and_eq_true] at hk ⊢
      exact ⟨by simp [hk.1, hk.2], walkKept_clean map cs⟩

/-- The forest produced by the descent is definition- and placeholder-free. -/
theorem walkKept_clean (map : FootnoteMap) :
    ∀ cs : List Node,
      allValsList (fun v => !v.isDefV && !v.isPHV) (walkKept map cs).1 = true
  | [] => rfl
  | c :: cs => by
      rw [walkKept]
      by_cases hk : keepChild c
      · simp only [hk, if_true, allValsList, Bool.and_eq_true]
        exact ⟨collectNode_clean map c hk, walkKept_clean map cs⟩
      · simp only [hk, Bool.false_eq_true, if_false]
        exact walkKept_clean map cs

end

mutual

/-- The walk preserves any payload predicate already true everywhere. -/
theorem collectNode_allVals (p : NV → Bool) (map : FootnoteMap) :
    ∀ n : Node, allVals p n = true → allVals p (collectNode map n).1 = true
  | .mk v cs, h => by
      rw [collectNode, allVals]
      rw [allVals] at h
      simp only [Bool.and_eq_true] at h ⊢
      exact ⟨h.1, walkKept_allVals p map cs h.2⟩

/-- Forest version of `collectNode_allVals`. -/
theorem walkKept_allVals (p : NV → Bool) (map : FootnoteMap) :
    ∀ cs : List Node, allValsList p cs = true →
      allValsList p (walkKept map cs).1 = true
  | [], _ => rfl
  | c :: cs, h => by
      rw [walkKept]
      rw [allValsList] at h
      simp only [Bool.and_eq_true] at h
      by_cases hk : keepChild c
      · simp only [hk, if_true, allValsList, Bool.and_eq_true]
        exact ⟨collectNode_allVals p map c h.1, walkKept_allVals p map cs h.2⟩
      · simp only [hk, Bool.false_eq_true, if_false]
        exact walkKept_allVals p map cs h.2

end

/-- `wrapIfInline` either keeps the node or wraps an inline definition's
children in one synthesized paragraph. -/
theorem wrapIfInline_eq (c : Node) :
    wrapIfInline c = c ∨
    ∃ lbl did cs, c = .mk (.footnoteDefinition lbl did true) cs ∧
      wrapIfInline c = .mk (.footnoteDefinition lbl did true) [.mk .paragraph cs] := by
  obtain ⟨v, cs⟩ := c
  cases v with
  | footnoteDefinition lbl did inl =>
      cases inl with
      | false => exact Or.inl rfl
      | true => exact Or.inr ⟨lbl, did, cs, rfl, rfl⟩
  | footnoteReference lbl r d => exact Or.inl rfl
  | inlineFootnote => exact Or.inl rfl
  | footnotesContainer => exact Or.inl rfl
  | placeholder => exact Or.inl rfl
  | paragraph => exact Or.inl rfl
  | text s => exact Or.inl rfl
  | other t => exact Or.inl rfl

/-- `wrapIfInline` preserves a payload predicate that accepts `Paragraph`. -/
theorem wrapIfInline_allVals {p : NV → Bool} (hp : p .paragraph = true)
    {c : Node} (h : allVals p c = true) : allVals p (wrapIfInline c) = true := by
  rcases wrapIfInline_eq c with hw | ⟨lbl, did, cs, hc, hw⟩
  · rwa [hw]
  · subst hc
    rw [allVals] at h
    simp only [Bool.and_eq_true] at h
    rw [hw, allVals, allValsList, allVals, allValsList]
    simp [h.1, h.2, hp]

theorem allValsList_mem {p : NV → Bool} {cs : List Node}
    (h : allValsList p cs = true) {c : Node} (hc : c ∈ cs) :
    allVals p c = true := by
  induction cs with
  | nil => cases hc
  | cons a cs ih =>
      rw [allValsList] at h
      simp only [Bool.and_eq_true] at h
      rcases List.mem_cons.mp hc with rfl | hc'
      · exact h.1
      · exact ih h.2 hc'

theorem noNestedDefList_mem {cs : List Node}
    (h : noNestedDefList cs = true) {c : Node} (hc : c ∈ cs) :
    noNestedDef c = true := by
  induction cs with
  | nil => cases hc
  | cons a cs ih =>
      rw [noNestedDefList] at h
      simp only [Bool.and_eq_true] at h
      rcases List.mem_cons.mp hc with rfl | hc'
      · exact h.1
      · exact ih h.2 hc'

/-- A definition with no nested definitions has definition-free children. -/
theorem noNestedDef_children {d : Node} (h : noNestedDef d = true)
    (hd : d.isDef = true) :
    allValsList (fun w => !w.isDefV) d.children = true := by
  obtain ⟨v, cs⟩ := d
  rw [Node.isDef_mk] at hd
  rw [noNestedDef] at h
  simp only [Bool.and_eq_true] at h
  have := h.1
  rw [hd] at this
  simpa [Node.children] using this

mutual

/-- Under `noNestedDef`, every encountered definition has definition-free
children. -/
theorem encDefs_mem_defFree :
    ∀ n : Node, noNestedDef n = true → ∀ d ∈ encDefs n,
      d.isDef = true ∧ allValsList (fun w => !w.isDefV) d.children = true
  | .mk v cs, h, d, hd => by
      rw [noNestedDef] at h
      simp only [Bool.and_eq_true] at h
      rw [encDefs] at hd
      rcases List.mem_append.mp hd with hd' | hd'
      · obtain ⟨hmem, hisdef⟩ := List.mem_filter.mp hd'
        exact ⟨hisdef,
          noNestedDef_children (noNestedDefList_mem h.2 hmem) hisdef⟩
      · exact encDefsList_mem_defFree cs h.2 d hd'

/-- Forest version of `encDefs_mem_defFree`. -/
theorem encDefsList_mem_defFree :
    ∀ cs : List Node, noNestedDefList cs = true → ∀ d ∈ encDefsList cs,
      d.isDef = true ∧ allValsList (fun w => !w.isDefV) d.children = true
  | [], _, d, hd => by cases hd
  | c :: cs, h, d, hd => by
      rw [noNestedDefList] at h
      simp only [Bool.and_eq_true] at h
      rw [encDefsList] at hd
      rcases List.mem_append.mp hd with hd' | hd'
      · by_cases hk : keepChild c
        · rw [if_pos hk] at hd'
          exact encDefs_mem_defFree c h.1 d hd'
        · rw [if_neg hk] at hd'
          cases hd'
      · exact encDefsList_mem_defFree cs h.2 d hd'

end

mutual

/-- Encountered definitions inherit any payload predicate holding on the
whole tree. -/
theorem encDefs_mem_allVals (p : NV → Bool) :
    ∀ n : Node, allVals p n = true → ∀ d ∈ encDefs n, allVals p d = true
  | .mk v cs, h, d, hd => by
      rw [allVals] at h
      simp only [Bool.and_eq_true] at h
      rw [encDefs] at hd
      rcases List.mem_append.mp hd with hd' | hd'
      · exact allValsList_mem h.2 (List.mem_filter.mp hd').1
      · exact encDefsList_mem_allVals p cs h.2 d hd'

/-- Forest version of `encDefs_mem_allVals`. -/
theorem encDefsList_mem_allVals (p : NV → Bool) :
    ∀ cs : List Node, allValsList p cs = true → ∀ d ∈ encDefsList cs,
      allVals p d = true
  | [], _, d, hd => by cases hd
  | c :: cs, h, d, hd => by
      rw [allValsList] at h
      simp only [Bool.and_eq_true] at h
      rw [encDefsList] at hd
      rcases List.mem_append.mp hd with hd' | hd'
      · by_cases hk : keepChild c
        · rw [if_pos hk] at hd'
          exact encDefs_mem_allVals p c h.1 d hd'
        · rw [if_neg hk] at hd'
          cases hd'
      · exact encDefsList_mem_allVals p cs h.2 d hd'

end

/-- The root-level scan plus the descent encounter exactly
`encDefsForest`; its members are definitions with definition-free children
under the no-nesting hypothesis. -/
theorem encDefsForest_mem_defFree {cs : List Node}
    (hnest : noNestedDefList cs = true) {d : Node} (hd : d ∈ encDefsForest cs) :
    d.isDef = true ∧ allValsList (fun w => !w.isDefV) d.children = true := by
  rw [encDefsForest] at hd
  rcases List.mem_append.mp hd with hd' | hd'
  · obtain ⟨hmem, hisdef⟩ := List.mem_filter.mp hd'
    exact ⟨hisdef, noNestedDef_children (noNestedDefList_mem hnest hmem) hisdef⟩
  · exact encDefsList_mem_defFree cs hnest d hd'

theorem encDefsForest_mem_allVals {p : NV → Bool} {cs : List Node}
    (h : allValsList p cs = true) {d : Node} (hd : d ∈ encDefsForest cs) :
    allVals p d = true := by
  rw [encDefsForest] at hd
  rcases List.mem_append.mp hd with hd' | hd'
  · exact allValsList_mem h (List.mem_filter.mp hd').1
  · exact encDefsList_mem_allVals p cs h d hd'

/-- A wrapped definition with definition-free children is the only
pre-order definition of its subtree. -/
theorem pDefs_wrapIfInline_single {d : Node} (hd : d.isDef = true)
    (hcf : allValsList (fun w => !w.isDefV) d.children = true) :
    pDefs (wrapIfInline d) = [wrapIfInline d] := by
  rcases wrapIfInline_eq d with hw | ⟨lbl, did, dcs, hc, hw⟩
  · rw [hw]
    obtain ⟨v, cs⟩ := d
    rw [Node.isDef_mk] at hd
    rw [pDefs, Node.isDef_mk, hd]
    simp [pDefsList_nil_of_defFree, Node.children] at hcf ⊢
    exact pDefsList_nil_of_defFree cs hcf
  · subst hc
    rw [hw]
    rw [pDefs]
    simp only [Node.isDef_mk, NV.isDefV, if_true]
    rw [Node.children] at hcf
    have hpar : pDefs (Node.mk .paragraph dcs) = [] := by
      rw [pDefs, Node.isDef_mk]
      simp [NV.isDefV, pDefsList_nil_of_defFree dcs hcf]
    simp [pDefsList, hpar]

/-- A forest predicate follows from the same predicate on every member. -/
theorem allValsList_of_mem {p : NV → Bool} :
    ∀ L : List Node, (∀ d ∈ L, allVals p d = true) → allValsList p L = true := by
  intro L
  induction L with
  | nil => intro _; rfl
  | cons d L ih =>
      intro h
      rw [allValsList]
      simp only [Bool.and_eq_true]
      exact ⟨h d (List.mem_cons_self d L),
        ih (fun e he => h e (List.mem_cons_of_mem d he))⟩

/-- A list of nodes each being its own only pre-order definition. -/
theorem pDefsList_of_singles :
    ∀ L : List Node, (∀ d ∈ L, pDefs d = [d]) → pDefsList L = L := by
  intro L
  induction L with
  | nil => intro _; rfl
  | cons d L ih =>
      intro h
      rw [pDefsList, h d (List.mem_cons_self d L),
        ih (fun e he => h e (List.mem_cons_of_mem d he))]
      rfl

/-- C1 (amended): on a parse-shaped root forest — no placeholders, no
pre-existing footnotes container, and no `FootnoteDefinition` nested inside
another — the collect pass removes every `FootnoteDefinition` and every
`PlaceholderNode` from the walked tree; the definitions occurring in the
result are exactly those encountered definitions whose id has at least one
recorded reference, in encounter order, wrapped (inline ones in a
synthesized `Paragraph`); when that list is nonempty it forms the child
list of the single `FootnotesContainerNode` appended as the last child of
the root, and otherwise no container is added. -/
theorem collect_pass_spec (map : FootnoteMap) (others : List String)
    (cs : List Node)
    (hph : allValsList (fun v => !v.isPHV) cs = true)
    (hnest : noNestedDefList cs = true)
    (hnc : allValsList (fun v => !v.isContV) cs = true) :
    pDefsList (collectRun ⟨some map, others⟩ cs).2
      = ((encDefsForest cs).filter (extractKeep map)).map wrapIfInline ∧
    allValsList (fun v => !v.isPHV) (collectRun ⟨some map, others⟩ cs).2 = true ∧
    (((encDefsForest cs).filter (extractKeep map)).map wrapIfInline = [] →
      allValsList (fun v => !v.isContV) (collectRun ⟨some map, others⟩ cs).2
        = true) ∧
    (((encDefsForest cs).filter (extractKeep map)).map wrapIfInline ≠ [] →
      ∃ rest, (collectRun ⟨some map, others⟩ cs).2
          = rest ++ [Node.mk .footnotesContainer
              (((encDefsForest cs).filter (extractKeep map)).map wrapIfInline)] ∧
        allValsList (fun v => !v.isContV) rest = true ∧
        allValsList (fun v => !v.isDefV) rest = true) := by
  rcases hw : walkKept map cs with ⟨walked, below⟩
  have hdefs : extractList map cs ++ below
      = ((encDefsForest cs).filter (extractKeep map)).map wrapIfInline := by
    have hb : below = ((encDefsList cs).filter (extractKeep map)).map wrapIfInline := by
      have := walkKept_defs map cs
      rw [hw] at this
      exact this
    rw [hb, extractList, encDefsForest, List.filter_append, List.map_append,
      filter_isDef_extractKeep]
  have hwalked_clean : allValsList (fun v => !v.isDefV && !v.isPHV) walked = true := by
    have := walkKept_clean map cs
    rw [hw] at this
    exact this
  have hwalked_defFree : allValsList (fun v => !v.isDefV) walked = true :=
    allValsList_imp _ _ (fun v hv => by
      simp only [Bool.and_eq_true] at hv; exact hv.1) walked hwalked_clean
  have hwalked_phFree : allValsList (fun v => !v.isPHV) walked = true :=
    allValsList_imp _ _ (fun v hv => by
      simp only [Bool.and_eq_true] at hv; exact hv.2) walked hwalked_clean
  have hwalked_contFree : allValsList (fun v => !v.isContV) walked = true := by
    have := walkKept_allVals (fun v => !v.isContV) map cs hnc
    rw [hw] at this
    exact this
  have hwalked_pdefs : pDefsList walked = [] :=
    pDefsList_nil_of_defFree walked hwalked_defFree
  have hrun : collectRun ⟨some map, others⟩ cs =
      if (extractList map cs ++ below).isEmpty
      then (RootExtSet.default, walked)
      else (⟨some map, others⟩, walked ++ [Node.mk .footnotesContainer
             (extractList map cs ++ below)]) := by
    rw [collectRun]
    simp only [hw]
  by_cases hWnil :
      ((encDefsForest cs).filter (extractKeep map)).map wrapIfInline = []
  · have hempty : (extractList map cs ++ below).isEmpty = true := by
      rw [hdefs, hWnil]; rfl
    rw [hrun, if_pos hempty]
    refine ⟨by rw [hwalked_pdefs, hWnil], hwalked_phFree,
      fun _ => hwalked_contFree, fun hne => absurd hWnil hne⟩
  · have hempty : (extractList map cs ++ below).isEmpty = false := by
      rw [hdefs]
      exact List.isEmpty_eq_false_iff_exists_mem.mpr
        (List.exists_mem_of_ne_nil _ hWnil)
    rw [hrun, if_neg (by rw [hempty]; exact Bool.false_ne_true)]
    have hWmem : ∀ d ∈ ((encDefsForest cs).filter (extractKeep map)).map wrapIfInline,
        ∃ c, c ∈ encDefsForest cs ∧ d = wrapIfInline c := by
      intro d hd
      obtain ⟨c, hcmem, hdc⟩ := List.mem_map.mp hd
      exact ⟨c, (List.mem_filter.mp hcmem).1, hdc.symm⟩
    have hWsingles : ∀ d ∈ ((encDefsForest cs).filter (extractKeep map)).map
        wrapIfInline, pDefs d = [d] := by
      intro d hd
      obtain ⟨c, hcmem, rfl⟩ := hWmem d hd
      obtain ⟨hcd, hcf⟩ := encDefsForest_mem_defFree hnest hcmem
      exact pDefs_wrapIfInline_single hcd hcf
    have hWph : ∀ d ∈ ((encDefsForest cs).filter (extractKeep map)).map
        wrapIfInline, allVals (fun v => !v.isPHV) d = true := by
      intro d hd
      obtain ⟨c, hcmem, rfl⟩ := hWmem d hd
      exact wrapIfInline_allVals rfl (encDefsForest_mem_allVals hph hcmem)
    refine ⟨?_, ?_, fun heq => absurd heq hWnil, fun _ => ⟨walked, by rw [hdefs],
      hwalked_contFree, hwalked_defFree⟩⟩
    · rw [hdefs, pDefsList_append, hwalked_pdefs, List.nil_append, pDefsList,
        pDefs]
      simp only [Node.isDef_mk, NV.isDefV, Node.children]
      rw [pDefsList_of_singles _ hWsingles]
      simp [pDefsList]
    · rw [hdefs, allValsList_append, hwalked_phFree, Bool.true_and, allValsList,
        allVals]
      have hWall : allValsList (fun v => !v.isPHV)
          (((encDefsForest cs).filter (extractKeep map)).map wrapIfInline)
            = true := allValsList_of_mem _ hWph
      simp [hWall, allValsList,
        (show NV.isPHV .footnotesContainer = false from rfl)]

/-- A one-reference, one-definition document shape:
`"[^a]\n\n[^a]: note"`. -/
def csW : List Node :=
  [.mk .paragraph [.mk (.footnoteReference (some "a") 1 1) []],
   .mk (.footnoteDefinition (some "a") (some 1) false)
     [.mk .paragraph [.mk (.text "note") []]]]

/-- The footnote map after parsing `csW`. -/
def mapW : FootnoteMap :=
  { def_counter := 1, ref_counter := 1, label_to_def := [("a", 1)],
    def_to_refs := [(1, [1])] }

/-- Witness for `collect_pass_spec` at the one-footnote document. -/
theorem collect_pass_spec_witness :
    (allValsList (fun v => !v.isPHV) csW = true ∧
     noNestedDefList csW = true ∧
     allValsList (fun v => !v.isContV) csW = true) ∧
    (pDefsList (collectRun ⟨some mapW, []⟩ csW).2
      = ((encDefsForest csW).filter (extractKeep mapW)).map wrapIfInline ∧
     allValsList (fun v => !v.isPHV) (collectRun ⟨some mapW, []⟩ csW).2 = true ∧
     (((encDefsForest csW).filter (extractKeep mapW)).map wrapIfInline = [] →
       allValsList (fun v => !v.isContV) (collectRun ⟨some mapW, []⟩ csW).2
         = true) ∧
     (((encDefsForest csW).filter (extractKeep mapW)).map wrapIfInline ≠ [] →
       ∃ rest, (collectRun ⟨some mapW, []⟩ csW).2
           = rest ++ [Node.mk .footnotesContainer
               (((encDefsForest csW).filter (extractKeep mapW)).map wrapIfInline)] ∧
         allValsList (fun v => !v.isContV) rest = true ∧
         allValsList (fun v => !v.isDefV) rest = true)) :=
  ⟨⟨by decide, by decide, by decide⟩,
   collect_pass_spec mapW [] csW (by decide) (by decide) (by decide)⟩

/-- The inner inline definition of the nested parse shape of
`"^[a ^[b]]"` (an inline footnote inside an inline footnote's body). -/
def innerDef : Node :=
  .mk (.footnoteDefinition none (some 2) true) [.mk (.text "b") []]

/-- The outer inline definition, holding `innerDef` in its body. -/
def outerDef : Node :=
  .mk (.footnoteDefinition none (some 1) true)
    [.mk (.text "a") [],
     .mk .inlineFootnote [innerDef, .mk (.footnoteReference none 2 2) []]]

/-- The root child list produced for `"^[a ^[b]]"`. -/
def csNested : List Node :=
  [.mk .paragraph
    [.mk .inlineFootnote [outerDef, .mk (.footnoteReference none 1 1) []]]]

/-- The footnote map after parsing `csNested`: both inline definitions are
referenced. -/
def mapNested : FootnoteMap :=
  { def_counter := 2, ref_counter := 2, label_to_def := [],
    def_to_refs := [(1, [1]), (2, [2])] }

/-- The definition id of a `FootnoteDefinition` node. -/
def defIdOf : Node → Option Nat
  | .mk (.footnoteDefinition _ i _) _ => i
  | _ => none

/-- C1 counterexample: on the parse shape of `"^[a ^[b]]"`, definition 2
has a recorded reference, yet after the collect pass the tree still
contains two `FootnoteDefinition` nodes (ids 1 and 2) while the trailing
container's children hold only the definition with id 1: the referenced
definition 2 — nested inside definition 1's extracted body — is neither
detached from the tree nor appended as a child of the container,
contradicting the claim. -/
theorem collect_nested_def_not_detached :
    mapNested.referenced_by 2 = [2] ∧
    (pDefsList (collectRun ⟨some mapNested, []⟩ csNested).2).filterMap defIdOf
      = [1, 2] ∧
    ((collectRun ⟨some mapNested, []⟩ csNested).2.getLastD
        (.mk (.other 0) [])).children.filterMap defIdOf = [1] :=
  ⟨by decide, by decide, by decide⟩

end Quickmark
